import Mathlib

/-!
Verification development for the multi-instance PeerTube feed-aggregation
plugin.  The definitions below are a shallow embedding of the JavaScript
source (src/script.js, with the variant implementations in
src/unnamed/part_000 and src/unnamed/part_001 noted where they differ).
JavaScript values the functions inspect dynamically are modelled by the
inductive type JVal; network and JSON.parse effects are modelled by
explicit function parameters (oracles); the Fisher-Yates shuffle is
modelled by an explicit permutation parameter; an uncaught JavaScript
exception is modelled as an Except.error result.
-/

/-- Model of an untyped JavaScript value as far as the plugin inspects it:
null/undefined, booleans, integral numbers, strings and arrays. -/
inductive JVal where
  | jnull : JVal
  | jbool : Bool → JVal
  | jnum : Int → JVal
  | jstr : String → JVal
  | jarr : List JVal → JVal

/-- JavaScript truthiness for the modelled values (empty string, 0, false,
null are falsy; every array, even the empty one, is truthy). -/
def jTruthy : JVal → Bool
  | JVal.jnull => false
  | JVal.jbool b => b
  | JVal.jnum n => n != 0
  | JVal.jstr s => s != ""
  | JVal.jarr _ => true

/-- JavaScript String(x) conversion for the modelled values. -/
def jToString : JVal → String
  | JVal.jnull => "null"
  | JVal.jbool b => if b then "true" else "false"
  | JVal.jnum n => toString n
  | JVal.jstr s => s
  | JVal.jarr l => String.intercalate "," (l.map (fun v =>
      match v with
      | JVal.jstr s => s
      | JVal.jnull => ""
      | JVal.jbool b => if b then "true" else "false"
      | JVal.jnum n => toString n
      | JVal.jarr _ => ""))

/-- Lowercasing of a string, character by character, modelling JavaScript
toLowerCase on the ASCII language tags and host names the plugin compares.
Defined by structural recursion so that concrete instances evaluate. -/
def jsToLower (s : String) : String :=
  String.mk (s.toList.map Char.toLower)

/-- Whitespace trimming at both ends, modelling JavaScript String.trim.
Defined by structural recursion so that concrete instances evaluate. -/
def jsTrim (s : String) : String :=
  String.mk (((s.toList.dropWhile Char.isWhitespace).reverse.dropWhile
    Char.isWhitespace).reverse)

/-- Splitting a character list at commas, with an accumulator for the
current segment, modelling JavaScript String.split with separator comma. -/
def splitCommaAux : List Char → List Char → List (List Char)
  | [], acc => [acc.reverse]
  | ch :: rest, acc =>
    if ch = ',' then acc.reverse :: splitCommaAux rest []
    else splitCommaAux rest (ch :: acc)

/-- JavaScript s.split(",") as a string-level operation. -/
def jsSplitComma (s : String) : List String :=
  (splitCommaAux s.toList []).map String.mk

/-- Embedding of normalizeInstancesList (src/script.js lines 64-75): a falsy
value gives [], an array is mapped through String(x).trim() and empties are
dropped, a string is split on commas, trimmed, empties dropped; any other
type gives [].  Note the function does nothing else: no scheme defaulting,
no trailing-slash stripping, no URL validation, no deduplication. -/
def normalizeInstancesList (raw : JVal) : List String :=
  if !jTruthy raw then []
  else
    match raw with
    | JVal.jarr l => (l.map (fun v => jsTrim (jToString v))).filter (fun s => s != "")
    | JVal.jstr s => ((jsSplitComma s).map jsTrim).filter (fun s => s != "")
    | _ => []

/-- Embedding of normalizePreferredLanguages (src/script.js lines 77-87):
like normalizeInstancesList but entries are additionally lowercased. -/
def normalizePreferredLanguages (raw : JVal) : List String :=
  if !jTruthy raw then []
  else
    match raw with
    | JVal.jarr l => (l.map (fun v => jsToLower (jsTrim (jToString v)))).filter (fun s => s != "")
    | JVal.jstr s => ((jsSplitComma s).map (fun x => jsToLower (jsTrim x))).filter (fun s => s != "")
    | _ => []

/-- JavaScript c.indexOf(p) !== -1, i.e. p occurs as a substring of c. -/
def containsSub (c p : String) : Bool :=
  decide (p.toList <:+: c.toList)

/-- Embedding of parseSettings' per-value handling (src/script.js lines
38-59): a string value is trimmed; the empty string is kept as is; a
non-empty string is passed to JSON.parse (the oracle jp) and falls back to
the trimmed raw string when parsing fails; a non-string value is kept
unchanged.  Every branch returns a value, so the function never throws. -/
def parseVal (jp : String → Option JVal) (v : JVal) : JVal :=
  match v with
  | JVal.jstr s =>
    if jsTrim s = "" then JVal.jstr ""
    else
      match jp (jsTrim s) with
      | some p => p
      | none => JVal.jstr (jsTrim s)
  | v2 => v2

/-- Embedding of parseSettings (src/script.js lines 35-62): each key is kept
and its value normalized by parseVal. -/
def parseSettings (jp : String → Option JVal) (l : List (String × JVal)) :
    List (String × JVal) :=
  l.map (fun e => (e.1, parseVal jp e.2))

/-- The author reference carried by an aggregated item: models
item.author.id.value and item.author.name (either may be absent). -/
structure AuthorRef where
  idVal : Option String
  name : Option String

/-- One fetched feed item as the aggregation loop inspects it: id models
item.id.value; language, languages and videoLanguage model the raw metadata
fields videoObj.language, videoObj.languages and videoObj.video.language. -/
structure VideoItem where
  id : Option String
  author : Option AuthorRef
  language : JVal
  languages : JVal
  videoLanguage : JVal

/-- The candidate language strings collected by matchesPreferredLanguage
(src/script.js lines 168-178): videoObj.language if truthy, then
videoObj.languages (all elements when an array, the single String(x)
otherwise, when truthy), then videoObj.video.language if truthy, all
lowercased. -/
def langCandidates (it : VideoItem) : List String :=
  (if jTruthy it.language then [jsToLower (jToString it.language)] else [])
    ++ (if jTruthy it.languages then
          match it.languages with
          | JVal.jarr l => l.map (fun v => jsToLower (jToString v))
          | v => [jsToLower (jToString v)]
        else [])
    ++ (if jTruthy it.videoLanguage then [jsToLower (jToString it.videoLanguage)] else [])

/-- Embedding of matchesPreferredLanguage (src/script.js lines 164-188):
true when no preference is configured; otherwise true when some truthy
candidate contains some preferred tag, or when there are no candidates at
all; false otherwise. -/
def matchesPreferredLanguage (rawPref : JVal) (it : VideoItem) : Bool :=
  if (normalizePreferredLanguages rawPref).isEmpty then true
  else if ((langCandidates it).filter (fun c => c != "")).any
      (fun c => (normalizePreferredLanguages rawPref).any (fun p => containsSub c p)) then
    true
  else if (langCandidates it).isEmpty then true
  else false

/-- First-seen-order deduplication, as performed by the JavaScript idiom
spread-of-new-Set (src/script.js line 109), with an accumulator of the
values seen so far. -/
def dedupFirstAux : List String → List String → List String
  | [], _ => []
  | a :: l, acc => if acc.contains a then dedupFirstAux l acc else a :: dedupFirstAux l (a :: acc)

/-- First-seen-order deduplication of a list of strings. -/
def dedupFirst (l : List String) : List String :=
  dedupFirstAux l []

/-- The effective sample size (src/script.js line 116):
parseInt(instanceSampleSize) || 3, with none modelling an unparsable
setting (NaN) and 0 likewise falling back to 3. -/
def effSampleSize (v : Option Int) : Int :=
  match v with
  | none => 3
  | some n => if n = 0 then 3 else n

/-- The candidate host list of selectInstancesForFeed (src/script.js lines
108-113): user instances, the configured base URL and the index instances,
with falsy entries dropped and first-seen-order deduplication. -/
def candidatesOf (userRaw : JVal) (baseUrl : Option String) (index : List String) :
    List String :=
  dedupFirst ((normalizeInstancesList userRaw ++ baseUrl.toList ++ index).filter
    (fun s => s != ""))

/-- Embedding of selectInstancesForFeed (src/script.js lines 103-146).
When randomize is false the function returns the single first candidate
(or the base URL when there is none).  When randomize is true the
candidates are shuffled (rng models the Fisher-Yates pass), healthy ones
are collected up to the sample size, and if none is healthy the first
max 1 sampleSize original candidates are returned.  The health probe
isInstanceHealthy is modelled by the healthy oracle. -/
def selectInstancesForFeed (userRaw : JVal) (baseUrl : Option String) (index : List String)
    (randomize : Bool) (sampleRaw : Option Int) (healthy : String → Bool)
    (rng : List String → List String) : List String :=
  if !randomize then
    [(candidatesOf userRaw baseUrl index).headD (baseUrl.getD "")]
  else
    if (((rng (candidatesOf userRaw baseUrl index)).filter healthy).take
        (effSampleSize sampleRaw).toNat).isEmpty then
      (candidatesOf userRaw baseUrl index).take (max 1 (effSampleSize sampleRaw)).toNat
    else
      ((rng (candidatesOf userRaw baseUrl index)).filter healthy).take
        (effSampleSize sampleRaw).toNat

/-- The effective seen-history cap (src/script.js line 151):
parseInt(seenMax) || 500, with none modelling an unparsable setting and 0
likewise falling back to 500. -/
def effSeenMax (v : Option Int) : Int :=
  match v with
  | none => 500
  | some n => if n = 0 then 500 else n

/-- JavaScript list.slice(0, e), including the negative-index behaviour. -/
def jsSlice0 (l : List String) (e : Int) : List String :=
  if 0 ≤ e then l.take e.toNat else l.take (l.length - (-e).toNat)

/-- Embedding of pushSeenId (src/script.js lines 149-161): a falsy id is
ignored; a new id is inserted at the front; when the length exceeds the
effective cap the list is cut back to the cap with slice(0, seenMax). -/
def pushSeenId (seenMaxSetting : Option Int) (id : String) (seenIds : List String) :
    List String :=
  if id = "" then seenIds
  else
    if effSeenMax seenMaxSetting <
        ((if seenIds.contains id then seenIds else id :: seenIds).length : Int) then
      jsSlice0 (if seenIds.contains id then seenIds else id :: seenIds)
        (effSeenMax seenMaxSetting)
    else
      if seenIds.contains id then seenIds else id :: seenIds

/-- The effective per-channel cap (src/script.js line 987):
Math.max(1, parseInt(maxPerChannel) || 2). -/
def effMaxPerChannel (v : Option Int) : Int :=
  max 1 (match v with
    | none => 2
    | some n => if n = 0 then 2 else n)

/-- The per-author fallback key used when the author id is falsy
(src/script.js line 1000): author name, or the literal string unknown. -/
def authorNameKey (a : AuthorRef) : String :=
  match a.name with
  | some n => if n ≠ "" then n else "unknown"
  | none => "unknown"

/-- The channel key of an item (src/script.js line 1000):
author.id.value, falling back to author.name, falling back to unknown. -/
def channelKeyOf (it : VideoItem) : String :=
  match it.author with
  | none => "unknown"
  | some a =>
    match a.idVal with
    | some s => if s ≠ "" then s else authorNameKey a
    | none => authorNameKey a

/-- Lookup in the perChannelCount object, absent keys counting as 0. -/
def pcGet (m : List (String × Nat)) (k : String) : Nat :=
  match m.find? (fun e => e.1 == k) with
  | some e => e.2
  | none => 0

/-- Increment of one key of the perChannelCount object. -/
def pcInc (m : List (String × Nat)) (k : String) : List (String × Nat) :=
  (k, pcGet m k + 1) :: m.filter (fun e => e.1 != k)

/-- The mutable state of the aggregation loop of source.getHome
(src/script.js lines 984-986): the set of ids accepted so far, the
per-channel counts and the accepted items in order. -/
structure AggState where
  seen : List String
  perChannel : List (String × Nat)
  final : List VideoItem

/-- The sequential skip checks of one iteration of the aggregation loop
(src/script.js lines 992-1002), in source order: falsy id, already
accepted in this pass, present in the persisted seen history, language
filter, per-channel quota.  Returns the item's id when it is accepted. -/
def acceptCheck (rawPref : JVal) (seenIds : List String) (maxPC : Nat)
    (st : AggState) (item : VideoItem) : Option String :=
  match item.id with
  | none => none
  | some vid =>
    if vid = "" then none
    else if st.seen.contains vid then none
    else if seenIds.contains vid then none
    else if !matchesPreferredLanguage rawPref item then none
    else if maxPC ≤ pcGet st.perChannel (channelKeyOf item) then none
    else some vid

/-- The aggregation loop of source.getHome (src/script.js lines 992-1008):
each accepted item is appended to final, its id recorded, its channel
count incremented, and the loop breaks as soon as final holds 20 items. -/
def aggRun (rawPref : JVal) (seenIds : List String) (maxPC : Nat) :
    AggState → List VideoItem → AggState
  | st, [] => st
  | st, item :: rest =>
    match acceptCheck rawPref seenIds maxPC st item with
    | none => aggRun rawPref seenIds maxPC st rest
    | some vid =>
      if 20 ≤ (st.final ++ [item]).length then
        ⟨vid :: st.seen, pcInc st.perChannel (channelKeyOf item), st.final ++ [item]⟩
      else
        aggRun rawPref seenIds maxPC
          ⟨vid :: st.seen, pcInc st.perChannel (channelKeyOf item), st.final ++ [item]⟩ rest

/-- The aggregated result returned by source.getHome: the accepted items
and the pager's hasMore flag. -/
structure HomeResult where
  results : List VideoItem
  hasMore : Bool

/-- The aggregation pass of source.getHome (src/script.js lines 983-1014)
over an already-fetched combined stream: the loop runs from an empty state
and the result pager is built with hasMore set to false (line 1014). -/
def getHomeAggregate (rawPref : JVal) (seenIds : List String) (mpcSetting : Option Int)
    (stream : List VideoItem) : HomeResult :=
  ⟨(aggRun rawPref seenIds (effMaxPerChannel mpcSetting).toNat ⟨[], [], []⟩ stream).final,
    false⟩

/-- One HTTP response as getVideoPager inspects it. -/
structure HttpResp where
  code : Int
  body : String

/-- The parsed listing payload: the data array and the reported total. -/
structure Listing where
  data : List JVal
  total : Int

/-- Embedding of getVideoPager (src/script.js lines 414-462) up to the
item mapping.  The transport layer is the res argument (Except.error for a
thrown transport error), JSON.parse is the parse oracle.  script.js has no
try/catch here: a transport error propagates, and a body that JSON.parse
rejects (an empty body included) throws, modelled as Except.error.  A
non-2xx code returns an empty pager, and a parsed body yields the data
array with hasMore = total > start + count, where start = page * 20 and
count = 20. -/
def getVideoPagerJs (parse : String → Option Listing) (page : Nat)
    (res : Except String HttpResp) : Except String (List JVal × Bool) :=
  match res with
  | Except.error e => Except.error e
  | Except.ok r =>
    if r.code ≠ 200 then Except.ok ([], false)
    else
      match parse r.body with
      | none => Except.error "SyntaxError: JSON.parse failed"
      | some obj => Except.ok (obj.data, decide ((page * 20 + 20 : Int) < obj.total))

/-- Embedding of the part_000 variant of getVideoPager (src/unnamed/part_000
lines 116-150): the whole body is wrapped in try/catch, so a transport
error, a non-2xx code and an unparsable body all yield the empty pager and
nothing escapes. -/
def getVideoPagerP0 (parse : String → Option Listing) (page : Nat)
    (res : Except String HttpResp) : List JVal × Bool :=
  match res with
  | Except.error _ => ([], false)
  | Except.ok r =>
    if r.code ≠ 200 then ([], false)
    else
      match parse r.body with
      | none => ([], false)
      | some obj => (obj.data, decide ((page * 20 + 20 : Int) < obj.total))

/-- Modelled from the spec: the InstanceHealthCache component of section
4.2 is absent from src (the sources only carry the stateless live probe
isInstanceHealthy, src/script.js lines 90-100, with no markUnhealthy, no
cooldown entry and no unhealthy-host store).  Entries map a host to its
unhealthyUntil timestamp. -/
structure HealthCache where
  entries : List (String × Nat)

/-- Modelled from the spec: the fixed cooldown window (e.g. 10 minutes),
in milliseconds. -/
def cooldownMs : Nat := 600000

/-- Modelled from the spec: markUnhealthy(host, reason) sets or overwrites
the host's cooldown to now + cooldown; the reason is advisory only. -/
def markUnhealthy (now : Nat) (host : String) (c : HealthCache) : HealthCache :=
  ⟨(host, now + cooldownMs) :: c.entries.filter (fun e => e.1 != host)⟩

/-- Modelled from the spec: isUnhealthy(host) performs the lazy-expiry
check and evicts the entry when it has expired. -/
def isUnhealthy (now : Nat) (host : String) (c : HealthCache) : Bool × HealthCache :=
  match c.entries.find? (fun e => e.1 == host) with
  | none => (false, c)
  | some e =>
    if now < e.2 then (true, c)
    else (false, ⟨c.entries.filter (fun e2 => e2.1 != host)⟩)

/-- The plugin's in-memory state object (src/script.js lines 5-9). -/
structure PluginState where
  serverVersion : String
  isSearchEngineSepiaSearch : Bool
  seenIds : List String

/-- The JSON object written by source.saveState (src/script.js lines
1088-1093): exactly the serverVersion and seenIds fields, nothing else.
Serialization of these two string-shaped fields is modelled structurally
(JSON round-trips them exactly). -/
structure SavedBlob where
  serverVersion : String
  seenIds : List String

/-- Embedding of source.saveState (src/script.js lines 1088-1093). -/
def saveStateBlob (s : PluginState) : SavedBlob :=
  ⟨s.serverVersion, s.seenIds⟩

/-- Embedding of the state-restoring merge in source.enable (src/script.js
line 1060): state = spread of the previous state updated by the parsed
blob, which carries exactly serverVersion and seenIds. -/
def loadStateBlob (dflt : PluginState) (b : SavedBlob) : PluginState :=
  { dflt with serverVersion := b.serverVersion, seenIds := b.seenIds }

/-- Modelled from the spec (section 3, PersistedState), for comparison with
the code: a persisted state carrying the three advertised fields
serverVersion, seenIds and unhealthyHosts. -/
structure SpecPersistedState where
  serverVersion : String
  seenIds : List String
  unhealthyHosts : List (String × Nat)

/-- What source.saveState persists of a three-field spec state: only
serverVersion and seenIds (the code has no unhealthyHosts field at all). -/
def saveSpecState (s : SpecPersistedState) : SavedBlob :=
  ⟨s.serverVersion, s.seenIds⟩

/-- What source.enable restores into a three-field spec state: the two
persisted fields; unhealthyHosts comes back empty since nothing stores it. -/
def loadSpecState (b : SavedBlob) : SpecPersistedState :=
  ⟨b.serverVersion, b.seenIds, []⟩

/-- Concrete item with language fr and no other language metadata. -/
def frSample : VideoItem :=
  ⟨some "vid-fr-1", none, JVal.jstr "fr", JVal.jnull, JVal.jnull⟩

/-- Concrete item with no language metadata at all. -/
def noLangSample : VideoItem :=
  ⟨some "vid-nolang", none, JVal.jnull, JVal.jnull, JVal.jnull⟩

/-- Concrete feed item number n, with a distinct id and channel per n. -/
def mkDemoItem (n : Nat) : VideoItem :=
  ⟨some (String.append "demo" (toString n)),
    some ⟨some (String.append "chan" (toString n)), none⟩,
    JVal.jnull, JVal.jnull, JVal.jnull⟩

/-- Concrete stream of n distinct demo items. -/
def demoStream (n : Nat) : List VideoItem :=
  (List.range n).map mkDemoItem

/-- Concrete stream of five items that all share the author key authorA. -/
def sameAuthorStream : List VideoItem :=
  [⟨some "sa1", some ⟨some "authorA", none⟩, JVal.jnull, JVal.jnull, JVal.jnull⟩,
   ⟨some "sa2", some ⟨some "authorA", none⟩, JVal.jnull, JVal.jnull, JVal.jnull⟩,
   ⟨some "sa3", some ⟨some "authorA", none⟩, JVal.jnull, JVal.jnull, JVal.jnull⟩,
   ⟨some "sa4", some ⟨some "authorA", none⟩, JVal.jnull, JVal.jnull, JVal.jnull⟩,
   ⟨some "sa5", some ⟨some "authorA", none⟩, JVal.jnull, JVal.jnull, JVal.jnull⟩]

/-- Concrete health oracle that accepts exactly the host u1.example. -/
def demoHealthy (h : String) : Bool :=
  h == "u1.example"

/-- Concrete three-field spec state with one live cooldown entry. -/
def specSample : SpecPersistedState :=
  ⟨"v1", ["id1"], [("h.example", 5)]⟩

/-- Invariant of the aggregation loop state: the per-channel counters agree
with the accepted items, every per-channel count is within the cap, the
accepted ids are pairwise distinct, and every accepted item has a truthy id
recorded in the seen set. -/
def AggInv (maxPC : Nat) (st : AggState) : Prop :=
  (∀ k, pcGet st.perChannel k
      = (st.final.filter (fun it => channelKeyOf it == k)).length)
  ∧ (∀ k, (st.final.filter (fun it => channelKeyOf it == k)).length ≤ maxPC)
  ∧ (st.final.map (fun it => it.id.getD "")).Nodup
  ∧ (∀ it ∈ st.final, ∃ v, it.id = some v ∧ v ≠ "" ∧ st.seen.contains v = true)


/-- Every normalized preferred-language tag is non-empty. -/
theorem mem_normalizePreferredLanguages_ne_empty (raw : JVal) (p : String)
    (hp : p ∈ normalizePreferredLanguages raw) : p ≠ "" := by
  unfold normalizePreferredLanguages at hp
  split at hp
  · simp at hp
  · split at hp <;> simp_all [List.mem_filter]

/-- The empty string contains no non-empty substring. -/
theorem containsSub_empty_left (p : String) (hp : p ≠ "") :
    containsSub "" p = false := by
  unfold containsSub
  have hpl : p.toList ≠ [] := by
    intro h
    exact hp (by
      have := congrArg (fun l => String.mk l) h
      simpa using this)
  simp only [String.toList_empty, decide_eq_false_iff_not]
  intro hinf
  exact hpl (List.eq_nil_of_infix_nil hinf)

/-- The language filter returns false exactly when all three boolean guards
of the source function fall through. -/
theorem matchesPreferredLanguage_false_iff (rawPref : JVal) (it : VideoItem) :
    matchesPreferredLanguage rawPref it = false ↔
      ((normalizePreferredLanguages rawPref).isEmpty = false ∧
        (((langCandidates it).filter (fun c => c != "")).any
          (fun c => (normalizePreferredLanguages rawPref).any
            (fun p => containsSub c p))) = false ∧
        (langCandidates it).isEmpty = false) := by
  unfold matchesPreferredLanguage
  cases hpe : (normalizePreferredLanguages rawPref).isEmpty <;>
    cases ha : ((langCandidates it).filter (fun c => c != "")).any
        (fun c => (normalizePreferredLanguages rawPref).any (fun p => containsSub c p)) <;>
      cases hce : (langCandidates it).isEmpty <;> simp

/-- The inner double loop of the language filter finds no match exactly
when no candidate (empty candidates included) contains any preferred tag. -/
theorem langFilterSkipAll (rawPref : JVal) (it : VideoItem) :
    (((langCandidates it).filter (fun c => c != "")).any
      (fun c => (normalizePreferredLanguages rawPref).any
        (fun p => containsSub c p)) = false) ↔
    (∀ c ∈ langCandidates it, ∀ p ∈ normalizePreferredLanguages rawPref,
      containsSub c p = false) := by
  rw [List.any_eq_false]
  constructor
  · intro h c hc p hp
    by_cases hce : c = ""
    · subst hce
      exact containsSub_empty_left p (mem_normalizePreferredLanguages_ne_empty rawPref p hp)
    · have hcf : c ∈ (langCandidates it).filter (fun c => c != "") :=
        List.mem_filter.mpr ⟨hc, by simpa using hce⟩
      have h2 := h c hcf
      rw [List.any_eq_true] at h2
      push_neg at h2
      exact Bool.eq_false_iff.mpr (h2 p hp)
  · intro h c hcf
    rw [List.any_eq_true]
    rintro ⟨p, hp, hcp⟩
    have hc := (List.mem_filter.mp hcf).1
    rw [h c hc p hp] at hcp
    exact Bool.false_ne_true hcp

/-- C3: the language filter skips an item exactly when a preference is
configured, the item carries language metadata, and no candidate contains
any preferred tag (candidates and tags are both lowercased by the code, so
containment is case-insensitive); an item without language metadata always
passes; and concretely an item with language fr is skipped under preference
en but kept under an empty preference list. -/
theorem languageFilterCharacterization :
    (∀ rawPref it,
      (matchesPreferredLanguage rawPref it = false ↔
        (normalizePreferredLanguages rawPref ≠ [] ∧ langCandidates it ≠ [] ∧
          ∀ c ∈ langCandidates it, ∀ p ∈ normalizePreferredLanguages rawPref,
            containsSub c p = false))
      ∧ (langCandidates it = [] → matchesPreferredLanguage rawPref it = true))
    ∧ matchesPreferredLanguage (JVal.jstr "en") frSample = false
    ∧ matchesPreferredLanguage (JVal.jarr []) frSample = true := by
  refine ⟨?_, by decide, by decide⟩
  intro rawPref it
  constructor
  · rw [matchesPreferredLanguage_false_iff, langFilterSkipAll,
      List.isEmpty_eq_false, List.isEmpty_eq_false]
    tauto
  · intro hnil
    have hne : matchesPreferredLanguage rawPref it ≠ false := by
      intro hfalse
      rw [matchesPreferredLanguage_false_iff] at hfalse
      obtain ⟨-, -, hc⟩ := hfalse
      rw [hnil] at hc
      simp at hc
    cases hmb : matchesPreferredLanguage rawPref it
    · exact absurd hmb hne
    · rfl

/-- Witness for C3: an item with no language metadata passes the filter
under an arbitrary preference. -/
theorem languageFilterCharacterization_check :
    matchesPreferredLanguage (JVal.jstr "en") noLangSample = true :=
  (languageFilterCharacterization.1 (JVal.jstr "en") noLangSample).2 rfl

/-- Counterexample for C4: with three configured hosts, sampleSize 2 and
randomize false, selection returns only the first host, not the first two
in original order as claimed. -/
theorem nonRandomSelectionFirstCandidate_counter :
    selectInstancesForFeed (JVal.jstr "h0.example,h1.example,h2.example")
        (some "h0.example") [] false (some 2) (fun _ => true) id = ["h0.example"]
    ∧ ["h0.example"] ≠ (["h0.example", "h1.example"] : List String) := by
  exact ⟨rfl, by decide⟩

/-- C4 (amended): with randomize false, selection returns a one-element
list holding the first candidate in original order (or the base URL when
there is no candidate), independently of sampleSize, the health oracle and
the shuffle. -/
theorem nonRandomSelectionFirstCandidate :
    ∀ (userRaw : JVal) (baseUrl : Option String) (index : List String)
      (sampleRaw : Option Int) (healthy : String → Bool) (rng : List String → List String),
      selectInstancesForFeed userRaw baseUrl index false sampleRaw healthy rng
        = [(candidatesOf userRaw baseUrl index).headD (baseUrl.getD "")]
      ∧ (selectInstancesForFeed userRaw baseUrl index false sampleRaw healthy rng).length
          = 1 := by
  intro userRaw baseUrl index sampleRaw healthy rng
  constructor <;> simp [selectInstancesForFeed]

/-- Counterexample for C5: a selection pass (randomize false) returns the
unhealthy host u0.example although the healthy candidate u1.example is
available, so unhealthy candidates are not removed before sampling in
every selection pass. -/
theorem selectRandomizedHealthFallback_counter :
    selectInstancesForFeed (JVal.jstr "u0.example,u1.example") none [] false (some 2)
        demoHealthy id = ["u0.example"]
    ∧ demoHealthy "u0.example" = false
    ∧ "u1.example" ∈ candidatesOf (JVal.jstr "u0.example,u1.example") none []
    ∧ demoHealthy "u1.example" = true := by
  refine ⟨rfl, rfl, by decide, rfl⟩

/-- C5 (amended): in randomized selection passes with an effective sample
size of at least one, every selected host is healthy unless no candidate
is healthy at all; when every candidate is unhealthy the selection falls
back to the first max 1 sampleSize original candidates; and a non-empty
candidate set always yields at least one host. -/
theorem selectRandomizedHealthFallback :
    ∀ (userRaw : JVal) (baseUrl : Option String) (index : List String)
      (sampleRaw : Option Int) (healthy : String → Bool) (rng : List String → List String),
      (rng (candidatesOf userRaw baseUrl index)).Perm (candidatesOf userRaw baseUrl index) →
      1 ≤ effSampleSize sampleRaw →
      (∀ h2 ∈ selectInstancesForFeed userRaw baseUrl index true sampleRaw healthy rng,
          healthy h2 = true ∨ ∀ c ∈ candidatesOf userRaw baseUrl index, healthy c = false)
      ∧ ((∀ c ∈ candidatesOf userRaw baseUrl index, healthy c = false) →
          selectInstancesForFeed userRaw baseUrl index true sampleRaw healthy rng
            = (candidatesOf userRaw baseUrl index).take
                (max 1 (effSampleSize sampleRaw)).toNat)
      ∧ (candidatesOf userRaw baseUrl index ≠ [] →
          selectInstancesForFeed userRaw baseUrl index true sampleRaw healthy rng ≠ []) := by
  intro userRaw baseUrl index sampleRaw healthy rng hperm hs
  have hn : 1 ≤ (effSampleSize sampleRaw).toNat := by omega
  by_cases hsel : (((rng (candidatesOf userRaw baseUrl index)).filter healthy).take
      (effSampleSize sampleRaw).toNat).isEmpty = true
  · have hfil : (rng (candidatesOf userRaw baseUrl index)).filter healthy = [] := by
      rcases List.take_eq_nil_iff.mp (List.isEmpty_iff.mp hsel) with h0 | hnil
      · omega
      · exact hnil
    have hall : ∀ c ∈ candidatesOf userRaw baseUrl index, healthy c = false := by
      intro c hc
      have hc2 : c ∈ rng (candidatesOf userRaw baseUrl index) := hperm.mem_iff.mpr hc
      exact Bool.eq_false_iff.mpr (List.filter_eq_nil_iff.mp hfil c hc2)
    refine ⟨fun h2 _ => Or.inr hall, fun _ => by simp [selectInstancesForFeed, hsel], ?_⟩
    intro hne
    simp only [selectInstancesForFeed, Bool.not_true, Bool.false_eq_true, if_false, hsel,
      if_true]
    have h1 : (1 : Int) ≤ max 1 (effSampleSize sampleRaw) := le_max_left _ _
    intro heq
    rcases List.take_eq_nil_iff.mp heq with h0 | hnil
    · omega
    · exact hne hnil
  · have hsel' : selectInstancesForFeed userRaw baseUrl index true sampleRaw healthy rng
        = ((rng (candidatesOf userRaw baseUrl index)).filter healthy).take
            (effSampleSize sampleRaw).toNat := by
      simp [selectInstancesForFeed, hsel]
    refine ⟨?_, ?_, ?_⟩
    · intro h2 hmem
      left
      rw [hsel'] at hmem
      have hmem2 : h2 ∈ (rng (candidatesOf userRaw baseUrl index)).filter healthy :=
        List.mem_of_mem_take hmem
      exact (List.mem_filter.mp hmem2).2
    · intro hall
      exfalso
      apply hsel
      have hfil : (rng (candidatesOf userRaw baseUrl index)).filter healthy = [] := by
        apply List.filter_eq_nil_iff.mpr
        intro a ha
        simp [hall a (hperm.mem_iff.mp ha)]
      rw [hfil]
      simp
    · intro _
      rw [hsel']
      intro heq
      apply hsel
      rw [heq]
      rfl

/-- Witness for C5 (amended): with one candidate host, randomize true and
every host unhealthy, the selector still returns a non-empty list. -/
theorem selectRandomizedHealthFallback_check :
    selectInstancesForFeed (JVal.jstr "h1.example") none [] true none
      (fun _ => false) id ≠ [] := by
  have h := selectRandomizedHealthFallback (JVal.jstr "h1.example") none []
    none (fun _ => false) id (List.Perm.refl _) (by decide)
  exact h.2.2 (by decide)

/-- Finding a key other than the removed one is unaffected by the removal. -/
theorem find?_filter_ne (m : List (String × Nat)) (k k2 : String) (hne : k2 ≠ k) :
    (m.filter (fun e => e.1 != k)).find? (fun e => e.1 == k2)
      = m.find? (fun e => e.1 == k2) := by
  induction m with
  | nil => rfl
  | cons e rest ih =>
    by_cases he : e.1 = k
    · have h1 : (e.1 != k) = false := by simp [he]
      have h2 : (e.1 == k2) = false := by
        simp only [beq_eq_false_iff_ne, ne_eq, he]
        exact fun hh => hne hh.symm
      simp [List.filter_cons, h1, List.find?_cons, h2, ih]
    · have h1 : (e.1 != k) = true := by simp [he]
      by_cases h2 : e.1 = k2
      · simp [List.filter_cons, h1, List.find?_cons, h2, hne]
      · have h2' : (e.1 == k2) = false := by simp [h2]
        simp [List.filter_cons, h1, List.find?_cons, h2', ih]

/-- Finding the removed key after the removal fails. -/
theorem find?_filter_self (m : List (String × Nat)) (k : String) :
    (m.filter (fun e => e.1 != k)).find? (fun e => e.1 == k) = none := by
  apply List.find?_eq_none.mpr
  intro x hx
  have hkeep := (List.mem_filter.mp hx).2
  simp only [bne_iff_ne, ne_eq] at hkeep
  simp [hkeep]

/-- Incrementing a key raises its looked-up count by one. -/
theorem pcGet_pcInc_self (m : List (String × Nat)) (k : String) :
    pcGet (pcInc m k) k = pcGet m k + 1 := by
  unfold pcGet pcInc
  rw [List.find?_cons_of_pos _ (by simp)]
  rfl

/-- Incrementing a key leaves the looked-up count of other keys unchanged. -/
theorem pcGet_pcInc_ne (m : List (String × Nat)) (k k2 : String) (hne : k2 ≠ k) :
    pcGet (pcInc m k) k2 = pcGet m k2 := by
  unfold pcGet pcInc
  rw [List.find?_cons_of_neg _ (by simp; exact fun hh => hne hh.symm),
    find?_filter_ne m k k2 hne]

/-- When the skip checks accept an item, the item's id is the returned
truthy id, it is not yet in the seen set, and its channel is under quota. -/
theorem acceptCheck_eq_some (rawPref : JVal) (seenIds : List String) (maxPC : Nat)
    (st : AggState) (item : VideoItem) (vid : String)
    (h : acceptCheck rawPref seenIds maxPC st item = some vid) :
    item.id = some vid ∧ vid ≠ "" ∧ st.seen.contains vid = false ∧
      pcGet st.perChannel (channelKeyOf item) < maxPC := by
  cases hid : item.id with
  | none => simp [acceptCheck, hid] at h
  | some v =>
    simp only [acceptCheck, hid] at h
    split_ifs at h with h1 h2 h3 h4 h5
    have hv : v = vid := by simpa using h
    subst hv
    refine ⟨rfl, h1, ?_, by omega⟩
    exact Bool.eq_false_iff.mpr h2

/-- Accepting an item preserves the aggregation invariant. -/
theorem AggInv_accept (rawPref : JVal) (seenIds : List String) (maxPC : Nat)
    (st : AggState) (item : VideoItem) (vid : String)
    (hinv : AggInv maxPC st)
    (h : acceptCheck rawPref seenIds maxPC st item = some vid) :
    AggInv maxPC ⟨vid :: st.seen, pcInc st.perChannel (channelKeyOf item),
      st.final ++ [item]⟩ := by
  obtain ⟨hid, hvne, hvnotseen, hlt⟩ :=
    acceptCheck_eq_some rawPref seenIds maxPC st item vid h
  obtain ⟨inv1, inv2, inv3, inv4⟩ := hinv
  have hfilself : (([item] : List VideoItem).filter
      (fun it => channelKeyOf it == channelKeyOf item)) = [item] := by simp
  refine ⟨?_, ?_, ?_, ?_⟩
  · intro k
    by_cases hk : k = channelKeyOf item
    · subst hk
      rw [pcGet_pcInc_self]
      simp only [List.filter_append, hfilself, List.length_append, List.length_singleton]
      rw [inv1]
    · have hfilne : (([item] : List VideoItem).filter
          (fun it => channelKeyOf it == k)) = [] := by
        simp only [List.filter_cons, List.filter_nil, beq_iff_eq]
        rw [if_neg (fun hh => hk hh.symm)]
      simp only [pcGet_pcInc_ne _ _ _ hk, List.filter_append, hfilne, List.append_nil]
      exact inv1 k
  · intro k
    by_cases hk : k = channelKeyOf item
    · subst hk
      simp only [List.filter_append, hfilself, List.length_append, List.length_singleton]
      have := inv1 (channelKeyOf item)
      omega
    · have hfilne : (([item] : List VideoItem).filter
          (fun it => channelKeyOf it == k)) = [] := by
        simp only [List.filter_cons, List.filter_nil, beq_iff_eq]
        rw [if_neg (fun hh => hk hh.symm)]
      simp only [List.filter_append, hfilne, List.append_nil]
      exact inv2 k
  · simp only [List.map_append, List.map_cons, List.map_nil]
    apply List.Nodup.append inv3 (by simp)
    intro x hx hx2
    simp only [hid, Option.getD_some, List.mem_singleton] at hx2
    obtain ⟨it2, hit2, hxeq⟩ := List.mem_map.mp hx
    obtain ⟨v2, hv2id, hv2ne, hv2seen⟩ := inv4 it2 hit2
    rw [hv2id] at hxeq
    simp only [Option.getD_some] at hxeq
    subst hxeq
    subst hx2
    rw [hv2seen] at hvnotseen
    simp at hvnotseen
  · intro it2 hit2
    rcases List.mem_append.mp hit2 with hmem | hmem
    · obtain ⟨v2, h1, h2, h3⟩ := inv4 it2 hmem
      refine ⟨v2, h1, h2, ?_⟩
      rw [List.contains_cons, h3]
      simp
    · have : it2 = item := by simpa using hmem
      subst this
      exact ⟨vid, hid, hvne, by simp [List.contains_cons]⟩

/-- The aggregation loop preserves the invariant. -/
theorem aggRun_inv (rawPref : JVal) (seenIds : List String) (maxPC : Nat) :
    ∀ (stream : List VideoItem) (st : AggState), AggInv maxPC st →
      AggInv maxPC (aggRun rawPref seenIds maxPC st stream) := by
  intro stream
  induction stream with
  | nil => intro st h; simpa only [aggRun] using h
  | cons item rest ih =>
    intro st h
    cases hacc : acceptCheck rawPref seenIds maxPC st item with
    | none =>
      simp only [aggRun, hacc]
      exact ih st h
    | some vid =>
      simp only [aggRun, hacc]
      split
      · exact AggInv_accept rawPref seenIds maxPC st item vid h hacc
      · exact ih _ (AggInv_accept rawPref seenIds maxPC st item vid h hacc)

/-- The aggregation loop never grows the result past 20 items when it
starts below 20. -/
theorem aggRun_length (rawPref : JVal) (seenIds : List String) (maxPC : Nat) :
    ∀ (stream : List VideoItem) (st : AggState), st.final.length < 20 →
      (aggRun rawPref seenIds maxPC st stream).final.length ≤ 20 := by
  intro stream
  induction stream with
  | nil => intro st h; simp only [aggRun]; omega
  | cons item rest ih =>
    intro st h
    cases hacc : acceptCheck rawPref seenIds maxPC st item with
    | none =>
      simp only [aggRun, hacc]
      exact ih st h
    | some vid =>
      simp only [aggRun, hacc]
      by_cases hc : 20 ≤ (st.final ++ [item]).length
      · rw [if_pos hc]
        show (st.final ++ [item]).length ≤ 20
        simp only [List.length_append, List.length_singleton]
        omega
      · rw [if_neg hc]
        apply ih
        show (st.final ++ [item]).length < 20
        simp only [List.length_append, List.length_singleton] at hc ⊢
        omega

/-- The aggregation loop appends a subsequence of the incoming stream to
the result accumulated so far. -/
theorem aggRun_final_append (rawPref : JVal) (seenIds : List String) (maxPC : Nat) :
    ∀ (stream : List VideoItem) (st : AggState),
      ∃ l, (aggRun rawPref seenIds maxPC st stream).final = st.final ++ l
        ∧ l.Sublist stream := by
  intro stream
  induction stream with
  | nil => intro st; exact ⟨[], by simp [aggRun], List.nil_sublist _⟩
  | cons item rest ih =>
    intro st
    cases hacc : acceptCheck rawPref seenIds maxPC st item with
    | none =>
      obtain ⟨l, h1, h2⟩ := ih st
      refine ⟨l, ?_, h2.cons item⟩
      simp only [aggRun, hacc]
      exact h1
    | some vid =>
      by_cases h20 : 20 ≤ (st.final ++ [item]).length
      · refine ⟨[item], ?_, (List.nil_sublist rest).cons₂ item⟩
        simp only [aggRun, hacc]
        rw [if_pos h20]
      · obtain ⟨l, h1, h2⟩ := ih ⟨vid :: st.seen, pcInc st.perChannel (channelKeyOf item),
          st.final ++ [item]⟩
        refine ⟨item :: l, ?_, h2.cons₂ item⟩
        simp only [aggRun, hacc]
        rw [if_neg h20, h1]
        simp

/-- Once the aggregation loop has filled 20 slots, further stream items
are never examined. -/
theorem aggRun_stop (rawPref : JVal) (seenIds : List String) (maxPC : Nat) :
    ∀ (stream : List VideoItem) (st : AggState) (extra : List VideoItem),
      st.final.length < 20 →
      (aggRun rawPref seenIds maxPC st stream).final.length = 20 →
      aggRun rawPref seenIds maxPC st (stream ++ extra)
        = aggRun rawPref seenIds maxPC st stream := by
  intro stream
  induction stream with
  | nil =>
    intro st extra hlt h20
    simp only [aggRun] at h20
    omega
  | cons item rest ih =>
    intro st extra hlt h20
    cases hacc : acceptCheck rawPref seenIds maxPC st item with
    | none =>
      simp only [List.cons_append, aggRun, hacc] at h20 ⊢
      exact ih st extra hlt h20
    | some vid =>
      simp only [List.cons_append, aggRun, hacc] at h20 ⊢
      by_cases hc : 20 ≤ (st.final ++ [item]).length
      · simp only [if_pos hc] at h20 ⊢
      · simp only [if_neg hc] at h20 ⊢
        refine ih _ extra ?_ h20
        simp only [List.length_append, List.length_singleton] at hc ⊢
        omega

/-- C1: in every aggregation pass, over any fetched stream, any settings and
any prior seen history, the result holds pairwise distinct item ids and no
channel key more often than the effective per-channel cap; for a configured
maxPerChannel of at least 1 the effective cap is the configured value; and
concretely five same-author items under maxPerChannel 2 yield exactly two
accepted items. -/
theorem homeAggregationDedupQuota :
    (∀ (rawPref : JVal) (seenIds : List String) (mpc : Option Int)
        (stream : List VideoItem),
      ((getHomeAggregate rawPref seenIds mpc stream).results.map
        (fun it => it.id.getD "")).Nodup
      ∧ (∀ k, ((getHomeAggregate rawPref seenIds mpc stream).results.filter
          (fun it => channelKeyOf it == k)).length ≤ (effMaxPerChannel mpc).toNat)
      ∧ (∀ n, mpc = some n → 1 ≤ n →
          ∀ k, ((getHomeAggregate rawPref seenIds mpc stream).results.filter
            (fun it => channelKeyOf it == k)).length ≤ n.toNat))
    ∧ (getHomeAggregate JVal.jnull [] (some 2) sameAuthorStream).results.length = 2 := by
  constructor
  · intro rawPref seenIds mpc stream
    have hinv0 : AggInv (effMaxPerChannel mpc).toNat ⟨[], [], []⟩ := by
      refine ⟨fun k => rfl, fun k => by simp, by simp, by simp⟩
    have hinv := aggRun_inv rawPref seenIds (effMaxPerChannel mpc).toNat stream _ hinv0
    obtain ⟨i1, i2, i3, i4⟩ := hinv
    refine ⟨i3, i2, ?_⟩
    intro n hn h1 k
    have heq : (effMaxPerChannel mpc).toNat = n.toNat := by
      subst hn
      show (max 1 (if n = 0 then 2 else n)).toNat = n.toNat
      rw [if_neg (by omega), max_eq_right (by omega : (1 : Int) ≤ n)]
    rw [← heq]
    exact i2 k
  · rfl

/-- Witness for C1: the per-channel bound instantiated at the same-author
stream with configured maxPerChannel 2. -/
theorem homeAggregationDedupQuota_check :
    ((getHomeAggregate JVal.jnull [] (some 2) sameAuthorStream).results.filter
      (fun it => channelKeyOf it == "authorA")).length ≤ (2 : Int).toNat :=
  (homeAggregationDedupQuota.1 JVal.jnull [] (some 2) sameAuthorStream).2.2
    2 rfl (by omega) "authorA"

/-- C2: in every aggregation pass the accepted items form a subsequence of
the fetched stream (fetch order preserved), the result holds at most 20
items, the returned hasMore flag is false, and once the result has filled
its 20 slots, appending further stream input changes nothing (the loop
stops early). -/
theorem homeAggregationOrderCap :
    ∀ (rawPref : JVal) (seenIds : List String) (mpc : Option Int)
      (stream : List VideoItem),
      (getHomeAggregate rawPref seenIds mpc stream).results.length ≤ 20
      ∧ (getHomeAggregate rawPref seenIds mpc stream).results.Sublist stream
      ∧ (getHomeAggregate rawPref seenIds mpc stream).hasMore = false
      ∧ ∀ extra, (getHomeAggregate rawPref seenIds mpc stream).results.length = 20 →
          getHomeAggregate rawPref seenIds mpc (stream ++ extra)
            = getHomeAggregate rawPref seenIds mpc stream := by
  intro rawPref seenIds mpc stream
  refine ⟨?_, ?_, rfl, ?_⟩
  · exact aggRun_length rawPref seenIds (effMaxPerChannel mpc).toNat stream
      ⟨[], [], []⟩ (by simp)
  · obtain ⟨l, h1, h2⟩ := aggRun_final_append rawPref seenIds
      (effMaxPerChannel mpc).toNat stream ⟨[], [], []⟩
    show (aggRun rawPref seenIds (effMaxPerChannel mpc).toNat ⟨[], [], []⟩ stream).final.Sublist
      stream
    rw [h1]
    simpa using h2
  · intro extra h20
    have hstop := aggRun_stop rawPref seenIds (effMaxPerChannel mpc).toNat stream
      ⟨[], [], []⟩ extra (by simp) h20
    show HomeResult.mk _ false = HomeResult.mk _ false
    rw [hstop]

/-- Witness for C2: a stream of 21 distinct items fills exactly 20 slots,
and extending it with further items leaves the aggregation unchanged. -/
theorem homeAggregationOrderCap_check :
    getHomeAggregate JVal.jnull [] none (demoStream 21 ++ demoStream 1)
      = getHomeAggregate JVal.jnull [] none (demoStream 21) :=
  (homeAggregationOrderCap JVal.jnull [] none (demoStream 21)).2.2.2
    (demoStream 1) (by rfl)

/-- Every entry of the normalized instance list is non-empty. -/
theorem mem_normalizeInstancesList_ne_empty (raw : JVal) (x : String)
    (hx : x ∈ normalizeInstancesList raw) : x ≠ "" := by
  unfold normalizeInstancesList at hx
  split at hx
  · simp at hx
  · split at hx <;> simp_all [List.mem_filter]

/-- Counterexample for C6: the instance-list normalization keeps a
duplicated host with its trailing slash and without any https scheme, so
hosts are neither slash-stripped, nor scheme-defaulted, nor deduplicated
by the settings normalization. -/
theorem settingsNormalizationShape_counter :
    normalizeInstancesList (JVal.jstr "example.com/,example.com/")
        = ["example.com/", "example.com/"]
    ∧ ¬ (["example.com/", "example.com/"] : List String).Nodup := by
  exact ⟨rfl, by decide⟩

/-- C6 (amended): settings normalization is total (never throws): it keeps
every key, and each value becomes the parsed JSON of the trimmed string,
the trimmed string itself, the empty string, or the original value; the
instance list is split at commas, entries are trimmed and empties dropped —
with no scheme defaulting, slash stripping, URL validation or deduplication
(deduplication happens later, in instance selection). -/
theorem settingsNormalizationShape :
    ∀ (jp : String → Option JVal) (l : List (String × JVal)),
      ((parseSettings jp l).map Prod.fst = l.map Prod.fst)
      ∧ (∀ k v, (k, v) ∈ parseSettings jp l →
          ∃ v0, (k, v0) ∈ l ∧ (v = v0 ∨ ∃ s, v0 = JVal.jstr s ∧
            (v = JVal.jstr (jsTrim s) ∨ v = JVal.jstr "" ∨ jp (jsTrim s) = some v)))
      ∧ (∀ (raw : JVal) (x : String), x ∈ normalizeInstancesList raw → x ≠ "" ∧
          ((∃ s, raw = JVal.jstr s ∧ ∃ seg ∈ jsSplitComma s, x = jsTrim seg)
            ∨ (∃ l2, raw = JVal.jarr l2 ∧ ∃ v ∈ l2, x = jsTrim (jToString v)))) := by
  intro jp l
  refine ⟨?_, ?_, ?_⟩
  · simp [parseSettings, List.map_map, Function.comp]
  · intro k v hmem
    simp only [parseSettings, List.mem_map] at hmem
    obtain ⟨e, he, heq⟩ := hmem
    have h1 : e.1 = k := congrArg Prod.fst heq
    have h2 : parseVal jp e.2 = v := congrArg Prod.snd heq
    refine ⟨e.2, by rw [← h1]; exact he, ?_⟩
    rw [← h2]
    cases he2 : e.2 with
    | jstr s =>
      right
      refine ⟨s, rfl, ?_⟩
      by_cases ht : jsTrim s = ""
      · right; left
        simp [parseVal, ht]
      · cases hjp : jp (jsTrim s) with
        | none => left; simp [parseVal, ht, hjp]
        | some p => right; right; simp [parseVal, ht, hjp]
    | jnull => left; rfl
    | jbool b => left; rfl
    | jnum n => left; rfl
    | jarr l2 => left; rfl
  · intro raw x hmem
    refine ⟨mem_normalizeInstancesList_ne_empty raw x hmem, ?_⟩
    cases raw with
    | jstr s =>
      left
      refine ⟨s, rfl, ?_⟩
      by_cases hs : s = ""
      · rw [hs] at hmem
        simp [normalizeInstancesList, jTruthy] at hmem
      · have hc : (!jTruthy (JVal.jstr s)) = false := by simp [jTruthy, hs]
        unfold normalizeInstancesList at hmem
        rw [hc] at hmem
        simp only [Bool.false_eq_true, if_false] at hmem
        obtain ⟨hx, _⟩ := List.mem_filter.mp hmem
        obtain ⟨seg, hseg, hxeq⟩ := List.mem_map.mp hx
        exact ⟨seg, hseg, hxeq.symm⟩
    | jarr l2 =>
      right
      refine ⟨l2, rfl, ?_⟩
      unfold normalizeInstancesList at hmem
      simp only [jTruthy, Bool.not_true, Bool.false_eq_true, if_false] at hmem
      obtain ⟨hx, _⟩ := List.mem_filter.mp hmem
      obtain ⟨v, hv, hxeq⟩ := List.mem_map.mp hx
      exact ⟨v, hv, hxeq.symm⟩
    | jnull => simp [normalizeInstancesList, jTruthy] at hmem
    | jbool b => cases b <;> simp [normalizeInstancesList, jTruthy] at hmem
    | jnum n => by_cases hn : n = 0 <;> simp [normalizeInstancesList, jTruthy, hn] at hmem

/-- Witness for C6 (amended): the trimmed host of a padded single-entry
instance string is characterized as a trimmed comma segment. -/
theorem settingsNormalizationShape_check :
    ("a.example" : String) ≠ "" ∧
      ((∃ s, JVal.jstr " a.example " = JVal.jstr s ∧
          ∃ seg ∈ jsSplitComma s, "a.example" = jsTrim seg)
        ∨ (∃ l2, JVal.jstr " a.example " = JVal.jarr l2 ∧
            ∃ v ∈ l2, "a.example" = jsTrim (jToString v))) :=
  (settingsNormalizationShape (fun _ => none) []).2.2 (JVal.jstr " a.example ")
    "a.example" (by decide)

/-- JavaScript slice(0, e) always returns an initial segment: some tail
completes it back to the original list. -/
theorem jsSlice0_append (l : List String) (e : Int) :
    ∃ t, jsSlice0 l e ++ t = l := by
  unfold jsSlice0
  split
  · exact ⟨l.drop _, List.take_append_drop _ _⟩
  · exact ⟨l.drop _, List.take_append_drop _ _⟩

/-- One push keeps the seen history within a non-negative effective cap. -/
theorem pushSeenId_length_le (v : Option Int) (id : String) (l : List String)
    (h0 : 0 ≤ effSeenMax v) (h : l.length ≤ (effSeenMax v).toNat) :
    (pushSeenId v id l).length ≤ (effSeenMax v).toNat := by
  unfold pushSeenId
  by_cases hid : id = ""
  · rw [if_pos hid]; exact h
  · rw [if_neg hid]
    by_cases hc : effSeenMax v
        < (((if l.contains id then l else id :: l) : List String).length : Int)
    · rw [if_pos hc]
      unfold jsSlice0
      rw [if_pos h0]
      simp only [List.length_take]
      omega
    · rw [if_neg hc]
      simp only [not_lt] at hc
      omega

/-- Counterexample for C7: with configured seenMax 0 (which is at least 0,
as the claim allows) the effective cap falls back to 500, so a single push
already leaves more than seenMax entries in the history. -/
theorem seenHistoryBound_counter :
    pushSeenId (some 0) "a" [] = ["a"]
    ∧ ¬ ((pushSeenId (some 0) "a" []).length ≤ 0) := by
  exact ⟨rfl, by decide⟩

/-- C7 (amended): for the effective cap (the configured seenMax when it is
a non-zero integer, the default 500 otherwise — a configured 0 therefore
does not bound the history), any sequence of pushes starting from the
empty history stays within the cap, and an over-capacity insertion is cut
back by dropping entries from the tail: the result is an initial segment
of the history with the new id at the front. -/
theorem seenHistoryBound :
    (∀ (v : Option Int) (ids : List String), 0 ≤ effSeenMax v →
      (ids.foldl (fun l i => pushSeenId v i l) []).length ≤ (effSeenMax v).toNat)
    ∧ (∀ (v : Option Int) (id : String) (l : List String), id ≠ "" →
        ∃ t, pushSeenId v id l ++ t = (if l.contains id then l else id :: l)) := by
  constructor
  · intro v ids h0
    suffices hgen : ∀ (acc : List String), acc.length ≤ (effSeenMax v).toNat →
        (ids.foldl (fun l i => pushSeenId v i l) acc).length ≤ (effSeenMax v).toNat by
      exact hgen [] (by simp)
    induction ids with
    | nil => intro acc h; simpa using h
    | cons i rest ih =>
      intro acc h
      simp only [List.foldl_cons]
      exact ih (pushSeenId v i acc) (pushSeenId_length_le v i acc h0 h)
  · intro v id l hid
    unfold pushSeenId
    rw [if_neg hid]
    by_cases hc : effSeenMax v
        < (((if l.contains id then l else id :: l) : List String).length : Int)
    · rw [if_pos hc]
      exact jsSlice0_append _ _
    · rw [if_neg hc]
      exact ⟨[], List.append_nil _⟩

/-- Witness for C7 (amended): two pushes from the empty history stay within
the default cap, and a push onto a one-element history is an initial
segment of the two-element insertion. -/
theorem seenHistoryBound_check :
    ((["x", "y"] : List String).foldl (fun l i => pushSeenId none i l) []).length
        ≤ (effSeenMax none).toNat
    ∧ ∃ t, pushSeenId none "x" ["y"] ++ t
        = (if (["y"] : List String).contains "x" then ["y"] else "x" :: ["y"]) :=
  ⟨seenHistoryBound.1 none ["x", "y"] (by decide),
    seenHistoryBound.2 none "x" ["y"] (by decide)⟩

/-- Counterexample for C8: a 2xx response whose body fails to parse (the
empty body here, which JSON.parse always rejects) makes the script.js
getVideoPager throw — the JSON.parse exception escapes the fetch component
instead of yielding a typed empty result. -/
theorem fetchErrorMapping_counter :
    getVideoPagerJs (fun _ => none) 0 (Except.ok ⟨200, ""⟩)
        = Except.error "SyntaxError: JSON.parse failed"
    ∧ (getVideoPagerJs (fun _ => none) 0 (Except.ok ⟨200, ""⟩)).isOk = false := by
  exact ⟨rfl, rfl⟩

/-- C8 (amended): in script.js, a transport error propagates out of
getVideoPager and a non-2xx status yields the empty pager, while a
successfully parsed 2xx body yields the data array with hasMore equal to
total > start + count; the part_000 variant additionally maps transport
errors and unparsable bodies to the empty pager, so nothing escapes it. -/
theorem fetchErrorMapping :
    ∀ (parse : String → Option Listing) (page : Nat),
      (∀ e, getVideoPagerJs parse page (Except.error e) = Except.error e)
      ∧ (∀ r, r.code ≠ 200 →
          getVideoPagerJs parse page (Except.ok r) = Except.ok ([], false))
      ∧ (∀ r obj, r.code = 200 → parse r.body = some obj →
          getVideoPagerJs parse page (Except.ok r)
            = Except.ok (obj.data, decide ((page * 20 + 20 : Int) < obj.total)))
      ∧ (∀ e, getVideoPagerP0 parse page (Except.error e) = ([], false))
      ∧ (∀ r, parse r.body = none →
          getVideoPagerP0 parse page (Except.ok r) = ([], false)) := by
  intro parse page
  refine ⟨fun e => rfl, ?_, ?_, fun e => rfl, ?_⟩
  · intro r hr
    simp [getVideoPagerJs, hr]
  · intro r obj hr hp
    simp [getVideoPagerJs, hr, hp]
  · intro r hp
    by_cases hr : r.code = 200
    · simp [getVideoPagerP0, hr, hp]
    · simp [getVideoPagerP0, hr]

/-- Witness for C8 (amended): a 404 response yields the empty pager with
hasMore false. -/
theorem fetchErrorMapping_check :
    getVideoPagerJs (fun _ => none) 0 (Except.ok ⟨404, "x"⟩)
      = Except.ok ([], false) :=
  (fetchErrorMapping (fun _ => none) 0).2.1 ⟨404, "x"⟩ (by decide)

/-- C9: immediately after markUnhealthy the host reads unhealthy, and once
the fixed cooldown window has elapsed it reads healthy again, with the
expired entry evicted from the cache (treated as absent, no sweep). -/
theorem healthCooldownLifecycle :
    ∀ (c : HealthCache) (host : String) (now t : Nat),
      (isUnhealthy now host (markUnhealthy now host c)).1 = true
      ∧ (now + cooldownMs ≤ t →
          (isUnhealthy t host (markUnhealthy now host c)).1 = false
          ∧ (isUnhealthy t host (markUnhealthy now host c)).2.entries.find?
              (fun e => e.1 == host) = none) := by
  intro c host now t
  have hfind : (markUnhealthy now host c).entries.find? (fun e => e.1 == host)
      = some (host, now + cooldownMs) := by
    unfold markUnhealthy
    rw [List.find?_cons_of_pos _ (by simp)]
  have hpos : now < now + cooldownMs := by unfold cooldownMs; omega
  constructor
  · simp only [isUnhealthy, hfind]
    rw [if_pos hpos]
  · intro ht
    have hnot : ¬ t < now + cooldownMs := by omega
    constructor
    · simp only [isUnhealthy, hfind]
      rw [if_neg hnot]
    · simp only [isUnhealthy, hfind]
      rw [if_neg hnot]
      exact find?_filter_self _ host

/-- Witness for C9: marking a host at time 0 and probing at the cooldown
boundary reads healthy. -/
theorem healthCooldownLifecycle_check :
    (isUnhealthy cooldownMs "h9.example" (markUnhealthy 0 "h9.example" ⟨[]⟩)).1
      = false :=
  ((healthCooldownLifecycle ⟨[]⟩ "h9.example" 0 cooldownMs).2 (by omega)).1

/-- Counterexample for C10: a state whose unhealthyHosts field is non-empty
(and unexpired at time 0) does not survive a save/load round trip, because
source.saveState serializes only serverVersion and seenIds. -/
theorem stateRoundTrip_counter :
    loadSpecState (saveSpecState specSample) ≠ specSample
    ∧ specSample.unhealthyHosts.all (fun e => decide (0 < e.2)) = true := by
  constructor
  · intro h
    have h2 := congrArg SpecPersistedState.unhealthyHosts h
    simp [loadSpecState, saveSpecState, specSample] at h2
  · rfl

/-- C10 (amended): the persisted blob round-trips the two fields that
source.saveState actually serializes, serverVersion and seenIds; a state
whose remaining field agrees with the pre-load default round-trips
completely.  The spec's third field, unhealthyHosts, has no counterpart in
the program state and is not persisted. -/
theorem stateRoundTrip :
    ∀ (dflt st2 : PluginState),
      (loadStateBlob dflt (saveStateBlob st2)).serverVersion = st2.serverVersion
      ∧ (loadStateBlob dflt (saveStateBlob st2)).seenIds = st2.seenIds
      ∧ (dflt.isSearchEngineSepiaSearch = st2.isSearchEngineSepiaSearch →
          loadStateBlob dflt (saveStateBlob st2) = st2) := by
  intro dflt st2
  refine ⟨rfl, rfl, ?_⟩
  intro h
  cases st2
  cases dflt
  simp_all [loadStateBlob, saveStateBlob]

/-- Witness for C10 (amended): a concrete state with the default search
flag round-trips completely. -/
theorem stateRoundTrip_check :
    loadStateBlob ⟨"", false, []⟩ (saveStateBlob ⟨"v2", false, ["a"]⟩)
      = (⟨"v2", false, ["a"]⟩ : PluginState) :=
  (stateRoundTrip ⟨"", false, []⟩ ⟨"v2", false, ["a"]⟩).2.2 rfl
